import Mathlib

/-!
Verification of the Intcode virtual machine
(`src/solutions/2019/code/intcode.py`, class `IntcodeComputer`).

Shallow embedding of the interpreter: memory is the total function
`ℤ → ℤ` seeded from the program image (the Python `defaultdict(int)`),
the pending-input iterator is a list consumed from the front, and the
fetch-decode-execute loop is a fuel-indexed recursion.  Errors raised by
the Python code (`ValueError`, `StopIteration`, `RuntimeError`,
`IndexError`) are explicit constructors; the interactive console read is
an external effect and is modelled as the distinguished outcome
`RunError.interactiveInput` (no claim exercises interactive runs).
-/

namespace Intcode

/-- Python dataclass `Instruction`: a raw operand paired with its decoded mode. -/
structure Instruction where
  parameter : ℤ
  mode : ℕ
  deriving DecidableEq, Repr

/-- The errors the interpreter can raise during decoding and execution. -/
inductive RunError where
  /-- A ValueError from applying int to the bare sign character inside
  `parse_opcode`: zfill keeps the sign of a negative word in front, so the
  first character of the padded string is not a digit. -/
  | parseNegative
  /-- A ValueError raised by `num_parameters` for an opcode outside its
  table (unreachable from `run`, which validates the opcode first). -/
  | invalidOpcodeValue (op : ℕ)
  /-- The ValueError raised by `run` for an opcode outside `valid_opcodes`. -/
  | invalidOpcode (op : ℕ)
  /-- The ValueError raised by `get_value` for a mode outside 0, 1, 2. -/
  | invalidMode (i : Instruction)
  /-- StopIteration: reading the next queued input when none is pending. -/
  | inputExhausted
  /-- An interactive console read: an external effect outside the pure
  model. -/
  | interactiveInput
  deriving DecidableEq, Repr

/-- Errors raised by `diagnostic` (distinct from run-time errors). -/
inductive DiagError where
  /-- The RuntimeError carrying every output but the last. -/
  | badDiagnostic (codes : List ℤ)
  /-- The IndexError raised by taking the last element of an empty log. -/
  | indexError
  deriving DecidableEq, Repr

/-- The machine state: the fields of `IntcodeComputer`.  `program` is the
`defaultdict(int)` memory (total, zero default), `inputs` the pending
input iterator as a list, `output` the append-only log.  The `debug` flag
only gates `print` calls and is omitted; `valid_opcodes` is the constant
`valid_opcodes` below. -/
structure IntcodeComputer where
  program : ℤ → ℤ
  output : List ℤ
  pointer : ℤ
  interactive : Bool
  inputs : List ℤ
  relative_base : ℤ

/-- The set of recognised opcodes, a constant of the machine. -/
def valid_opcodes : List ℕ := [1, 2, 3, 4, 5, 6, 7, 8, 9, 99]

/-- Memory seeded from the program image: `for index, i in
enumerate(program): self.program[index] = i`; every other address of the
`defaultdict` reads as zero. -/
def initMemory (program : List ℤ) : ℤ → ℤ :=
  fun a => if a < 0 then 0 else program.getD a.toNat 0

/-- Constructor `__init__(program, inputs, force_uninteractive)`:
`interactive = not inputs and not force_uninteractive` (a missing input
list is the empty list). -/
def IntcodeComputer.init (program : List ℤ) (inputs : List ℤ)
    (force_uninteractive : Bool) : IntcodeComputer where
  program := initMemory program
  output := []
  pointer := 0
  interactive := inputs.isEmpty && !force_uninteractive
  inputs := inputs
  relative_base := 0

/-- Pointwise update of the `defaultdict`: `self.program[a] = v`. -/
def memUpdate (f : ℤ → ℤ) (a v : ℤ) : ℤ → ℤ :=
  fun x => if x = a then v else f x

/-- Method `copy()`.  The Python body runs `list(self.inputs)`, which *drains*
the iterator of the original before rebuilding a fresh one, so
`copy` returns both the new machine (`res`) and the original as it is
left afterwards (its pending inputs gone).  All other fields are copied
(`dict.copy`, `list.copy`, field assignment) and left intact. -/
def IntcodeComputer.copy (m : IntcodeComputer) :
    IntcodeComputer × IntcodeComputer :=
  (⟨m.program, m.output, m.pointer, m.interactive, m.inputs, m.relative_base⟩,
   { m with inputs := [] })

/-- Method `get_input()`: interactive machines read the console (external
effect); queued machines take `next(self.inputs)`, raising
`StopIteration` on exhaustion.  Returns the value and the machine with
the input consumed. -/
def IntcodeComputer.get_input (m : IntcodeComputer) :
    Except RunError (ℤ × IntcodeComputer) :=
  if m.interactive then .error .interactiveInput
  else
    match m.inputs with
    | [] => .error .inputExhausted
    | v :: rest => .ok (v, { m with inputs := rest })

/-- One `int` appended to the queue: `self.interactive = False;
self.inputs = iter([*list(self.inputs), val])`. -/
def IntcodeComputer.addOne (m : IntcodeComputer) (v : ℤ) : IntcodeComputer :=
  { m with interactive := false, inputs := m.inputs ++ [v] }

/-- Method `add_input(val)`: sets `interactive = False`, then either appends one
`int` or recurses over a list (each recursive call appends one value). -/
def IntcodeComputer.add_input (m : IntcodeComputer) (val : ℤ ⊕ List ℤ) :
    IntcodeComputer :=
  match val with
  | .inl v => m.addOne v
  | .inr l => l.foldl IntcodeComputer.addOne { m with interactive := false }

/-- Operand-count table `num_parameters(opcode)`; raises a ValueError
for any opcode outside the table. -/
def num_parameters (op : ℕ) : Except RunError ℕ :=
  if op = 99 then .ok 0
  else if op = 1 ∨ op = 2 ∨ op = 7 ∨ op = 8 then .ok 3
  else if op = 5 ∨ op = 6 then .ok 2
  else if op = 3 ∨ op = 4 ∨ op = 9 then .ok 1
  else .error (.invalidOpcodeValue op)

/-- Decimal digit count with explicit fuel (structural recursion), so the
kernel can evaluate it.  `digitLenAux fuel n` is the digit count of `n`
whenever `n < fuel`. -/
def digitLenAux : ℕ → ℕ → ℕ
  | 0, _ => 0
  | fuel + 1, n => if n < 10 then 1 else digitLenAux fuel (n / 10) + 1

/-- Length of the decimal form of a natural number `n` (so `digitLen 0 = 1`). -/
def digitLen (n : ℕ) : ℕ := digitLenAux (n + 1) n

/-- Decoder `parse_opcode(word)`: with `padded = str(word).zfill(5)` the
result is
`(int(padded[3:]), int(padded[2]), int(padded[1]), int(padded[0]))`.
`padded` has `max 5 (digitLen n)` characters; the character at index `i`
from the left is the decimal digit of weight `10 ^ (len - 1 - i)`, and
`padded[3:]` is the trailing `len - 3` characters, i.e.
`n % 10 ^ (len - 3)`.  For a negative word zfill keeps the sign in
front, so converting the first padded character to int fails. -/
def parse_opcode (w : ℤ) : Except RunError (ℕ × ℕ × ℕ × ℕ) :=
  if w < 0 then .error .parseNegative
  else
    let n := w.toNat
    let len := max 5 (digitLen n)
    .ok (n % 10 ^ (len - 3), n / 10 ^ (len - 3) % 10,
         n / 10 ^ (len - 2) % 10, n / 10 ^ (len - 1) % 10)

/-- Method `slice_program(range(lo, lo + len))`: reads `len` consecutive cells
(zero-default) starting at `lo`. -/
def IntcodeComputer.slice_program (m : IntcodeComputer) (lo : ℤ) (len : ℕ) :
    List ℤ :=
  (List.range len).map fun i => m.program (lo + i)

/-- Mode dereference `get_value(instruction)`: 0 position, 1 immediate,
2 relative; any other mode raises a ValueError carrying the
instruction. -/
def IntcodeComputer.get_value (m : IntcodeComputer) (i : Instruction) :
    Except RunError ℤ :=
  if i.mode = 0 then .ok (m.program i.parameter)
  else if i.mode = 1 then .ok i.parameter
  else if i.mode = 2 then .ok (m.program (m.relative_base + i.parameter))
  else .error (.invalidMode i)

/-- Write-destination resolver `get_write_value(instruction)`: mode 2 adds the relative base; every
other mode falls through to the raw parameter.  It never raises. -/
def IntcodeComputer.get_write_value (m : IntcodeComputer) (i : Instruction) :
    ℤ :=
  if i.mode = 2 then i.parameter + m.relative_base else i.parameter

/-- Dispatcher `execute_opcode(opcode, params)`: the if/elif chain over
the opcode; returns the mutated machine together with the
should-increment-pointer boolean.  Python evaluates the right-hand side
of an assignment before the subscript target, so `get_value` calls come
before the `get_write_value` of the destination.  Operands are fetched by
position as in the source (`params[0]`, `params[1]`, `params[2]`);
indexing past the end of `params` would raise in Python but is
unreachable from `run`, which always passes exactly `num_parameters`
operands, so the embedding reads a dummy instruction there.  An opcode
matching no branch falls through the whole chain and returns the machine
unchanged with the boolean true (also unreachable from `run`, which
validates the opcode and intercepts 99 first). -/
def execute_opcode (m : IntcodeComputer) (op : ℕ)
    (params : List Instruction) : Except RunError (IntcodeComputer × Bool) :=
  if op = 1 then do
    let va ← m.get_value (params.getD 0 ⟨0, 0⟩)
    let vb ← m.get_value (params.getD 1 ⟨0, 0⟩)
    pure ({ m with
      program := memUpdate m.program (m.get_write_value (params.getD 2 ⟨0, 0⟩)) (va + vb) },
      true)
  else if op = 2 then do
    let va ← m.get_value (params.getD 0 ⟨0, 0⟩)
    let vb ← m.get_value (params.getD 1 ⟨0, 0⟩)
    pure ({ m with
      program := memUpdate m.program (m.get_write_value (params.getD 2 ⟨0, 0⟩)) (va * vb) },
      true)
  else if op = 3 then do
    let r ← m.get_input
    pure ({ r.2 with
      program := memUpdate r.2.program (r.2.get_write_value (params.getD 0 ⟨0, 0⟩)) r.1 },
      true)
  else if op = 4 then do
    let v ← m.get_value (params.getD 0 ⟨0, 0⟩)
    pure ({ m with output := m.output ++ [v] }, true)
  else if op = 5 then do
    let va ← m.get_value (params.getD 0 ⟨0, 0⟩)
    if va ≠ 0 then do
      let vb ← m.get_value (params.getD 1 ⟨0, 0⟩)
      pure ({ m with pointer := vb }, false)
    else pure (m, true)
  else if op = 6 then do
    let va ← m.get_value (params.getD 0 ⟨0, 0⟩)
    if va = 0 then do
      let vb ← m.get_value (params.getD 1 ⟨0, 0⟩)
      pure ({ m with pointer := vb }, false)
    else pure (m, true)
  else if op = 7 then do
    let va ← m.get_value (params.getD 0 ⟨0, 0⟩)
    let vb ← m.get_value (params.getD 1 ⟨0, 0⟩)
    let res : ℤ := if va < vb then 1 else 0
    pure ({ m with
      program := memUpdate m.program (m.get_write_value (params.getD 2 ⟨0, 0⟩)) res }, true)
  else if op = 8 then do
    let va ← m.get_value (params.getD 0 ⟨0, 0⟩)
    let vb ← m.get_value (params.getD 1 ⟨0, 0⟩)
    let res : ℤ := if va = vb then 1 else 0
    pure ({ m with
      program := memUpdate m.program (m.get_write_value (params.getD 2 ⟨0, 0⟩)) res }, true)
  else if op = 9 then do
    let v ← m.get_value (params.getD 0 ⟨0, 0⟩)
    pure ({ m with relative_base := m.relative_base + v }, true)
  else pure (m, true)

/-- The result of a call to `run`: the boolean returns of the Python code
become `halted = true` (opcode 99) / `halted = false` (suspended on the
output bound); a raised exception carries the machine exactly as mutated
up to the failure point; `outOfFuel` marks a loop the fuel did not
finish. -/
inductive RunOutcome where
  | ok (m : IntcodeComputer) (halted : Bool)
  | err (e : RunError) (m : IntcodeComputer)
  | outOfFuel (m : IntcodeComputer)

/-- Pointer advance at the end of a loop iteration: when
`should_increment_pointer` came back true, the pointer moves past the
opcode and its operands. -/
def bump (m : IntcodeComputer) (inc : Bool) (np : ℕ) : IntcodeComputer :=
  if inc then { m with pointer := m.pointer + np + 1 } else m

/-- The fetch-decode-execute loop of `run`, with `limit`/`target` the
decoded `num_outputs` bound and `orig` the `original_num_outputs`
snapshot.  One iteration: decode the word at the pointer, validate the
opcode, return on 99, build the `Instruction` list from the following
cells, execute, advance the pointer unless a jump was taken, and return
`False` once `len(output) - orig == num_outputs`. -/
def runAux : ℕ → IntcodeComputer → Bool → ℤ → ℕ → RunOutcome
  | 0, m, _, _, _ => .outOfFuel m
  | fuel + 1, m, limit, target, orig =>
    match parse_opcode (m.program m.pointer) with
    | .error e => .err e m
    | .ok (op, mo1, mo2, mo3) =>
      if op ∉ valid_opcodes then .err (.invalidOpcode op) m
      else if op = 99 then .ok m true
      else
        match num_parameters op with
        | .error e => .err e m
        | .ok np =>
          let params := List.zipWith Instruction.mk
            (m.slice_program (m.pointer + 1) np) [mo1, mo2, mo3]
          match execute_opcode m op params with
          | .error e => .err e m
          | .ok (m', inc) =>
            let m2 := bump m' inc np
            if limit = true ∧ (m2.output.length : ℤ) - (orig : ℤ) = target
            then .ok m2 false
            else runAux fuel m2 limit target orig

/-- Entry point `run(num_outputs=None)`: `limit_outputs = bool(num_outputs)` (so both
`None` and `0` disable the bound), `original_num_outputs = len(output)`.
`fuel` bounds the number of loop iterations of the embedding. -/
def IntcodeComputer.run (fuel : ℕ) (m : IntcodeComputer)
    (num_outputs : Option ℤ) : RunOutcome :=
  let limit : Bool := match num_outputs with
    | none => false
    | some n => decide (n ≠ 0)
  runAux fuel m limit (num_outputs.getD 0) m.output.length

/-- Self-test `diagnostic()`: every output but the last must be zero,
else a RuntimeError carries the offending prefix; then the last output is
returned, an IndexError when the log is empty. -/
def IntcodeComputer.diagnostic (m : IntcodeComputer) : Except DiagError ℤ :=
  if ¬ (m.output.dropLast.all fun x => x = 0) then
    .error (.badDiagnostic m.output.dropLast)
  else
    match m.output.getLast? with
    | some v => .ok v
    | none => .error .indexError

/-- The machine carried by a `RunOutcome` (the post-run state, the state
at the failure point, or the state when fuel ran out). -/
def RunOutcome.machine : RunOutcome → IntcodeComputer
  | .ok m _ => m
  | .err _ m => m
  | .outOfFuel m => m

/-- The boolean return value of `run`, when it returned. -/
def RunOutcome.halted? : RunOutcome → Option Bool
  | .ok _ h => some h
  | _ => none

/-- The exception raised by `run`, when one was raised. -/
def RunOutcome.error? : RunOutcome → Option RunError
  | .err e _ => some e
  | _ => none

/-- Decidable equality of `Except` results, for evaluating the machine on
concrete programs. -/
instance {ε α : Type} [DecidableEq ε] [DecidableEq α] :
    DecidableEq (Except ε α)
  | .ok a, .ok b =>
    if h : a = b then .isTrue (congrArg _ h)
    else .isFalse fun hh => h (Except.ok.inj hh)
  | .ok _, .error _ => .isFalse fun hh => Except.noConfusion hh
  | .error _, .ok _ => .isFalse fun hh => Except.noConfusion hh
  | .error e, .error f =>
    if h : e = f then .isTrue (congrArg _ h)
    else .isFalse fun hh => h (Except.error.inj hh)

theorem except_bind_ok {ε α β : Type} (x : Except ε α) (f : α → Except ε β)
    (b : β) : (x >>= f) = .ok b ↔ ∃ a, x = .ok a ∧ f a = .ok b := by
  cases x <;> simp [Bind.bind, Except.bind]

theorem digitLenAux_le (fuel : ℕ) : ∀ (k n : ℕ), n < fuel →
    n < 10 ^ (k + 1) → digitLenAux fuel n ≤ k + 1 := by
  induction fuel with
  | zero => intro k n h; omega
  | succ fuel ih =>
    intro k n hf hk
    rw [digitLenAux]
    by_cases h10 : n < 10
    · rw [if_pos h10]; omega
    · rw [if_neg h10]
      cases k with
      | zero => exact absurd (by simpa using hk) h10
      | succ k =>
        have hdiv : n / 10 < fuel := by
          have : n / 10 < n := Nat.div_lt_self (by omega) (by omega)
          omega
        have hk2 : n / 10 < 10 ^ (k + 1) := by
          rw [Nat.div_lt_iff_lt_mul (by omega)]
          calc n < 10 ^ (k + 2) := hk
            _ = 10 ^ (k + 1) * 10 := by ring
        have := ih k (n / 10) hdiv hk2
        omega

theorem digitLen_le_five {n : ℕ} (h : n < 100000) : digitLen n ≤ 5 :=
  digitLenAux_le (n + 1) 4 n (by omega) (by norm_num; omega)

/-- C2 (corrected): on the five-digit domain, `parse_opcode` returns the
final two decimal digits as the opcode, and the modes of operands 1, 2, 3
are the digits above the opcode read least-significant digit first: the
hundreds digit is the mode of operand 1, the thousands digit the mode of
operand 2, and the ten-thousands digit the mode of operand 3 (not
most-significant digit first, as the claim states). -/
theorem C2_decode_amended (w : ℤ) (h0 : 0 ≤ w) (h5 : w < 100000) :
    parse_opcode w = .ok (w.toNat % 100, w.toNat / 100 % 10,
      w.toNat / 1000 % 10, w.toNat / 10000 % 10) := by
  have hn : w.toNat < 100000 := by omega
  have hmax : max 5 (digitLen w.toNat) = 5 :=
    Nat.max_eq_left (digitLen_le_five hn)
  simp only [parse_opcode, hmax]
  rw [if_neg (not_lt.mpr h0)]
  norm_num

/-- C2 counterexample: the claim read literally predicts that
`parse_opcode 10002` yields modes 1, 0, 0 for operands 1, 2, 3 (digits
above the opcode read most-significant first); the code yields 0, 0, 1.
It also predicts opcode 2 for the six-digit word 100102, where the code
returns the three trailing digits 102 as the opcode. -/
theorem C2_decode_counterexample :
    parse_opcode 10002 = .ok (2, 0, 0, 1) ∧
    parse_opcode 10002 ≠ .ok (2, 1, 0, 0) ∧
    parse_opcode 100102 = .ok (102, 0, 0, 1) ∧
    parse_opcode 100102 ≠ .ok (2, 1, 0, 0) :=
  ⟨by decide, by decide, by decide, by decide⟩

theorem C2_decode_amended_witness :
    (0 : ℤ) ≤ 1002 ∧ (1002 : ℤ) < 100000 ∧
    parse_opcode 1002 = .ok (2, 0, 1, 0) := by
  refine ⟨by norm_num, by norm_num, ?_⟩
  rw [C2_decode_amended 1002 (by norm_num) (by norm_num)]
  decide

/-- C3 (corrected): for a mode outside 0, 1, 2, `get_value` fails with
the invalid-mode error, but `get_write_value` does not fail — any mode
other than 2 falls through to the raw parameter, so it returns an
address. -/
theorem C3_mode_errors_amended (m : IntcodeComputer) (i : Instruction)
    (h0 : i.mode ≠ 0) (h1 : i.mode ≠ 1) (h2 : i.mode ≠ 2) :
    m.get_value i = .error (.invalidMode i) ∧
    m.get_write_value i = i.parameter := by
  unfold IntcodeComputer.get_value IntcodeComputer.get_write_value
  rw [if_neg h0, if_neg h1, if_neg h2, if_neg h2]
  exact ⟨rfl, rfl⟩

/-- C3 counterexample: with mode 7 (outside 0, 1, 2),
`get_write_value` returns the raw parameter 5 as a write address instead
of failing; only `get_value` raises the invalid-mode error. -/
theorem C3_mode_errors_counterexample :
    (IntcodeComputer.init [] [] false).get_write_value ⟨5, 7⟩ = 5 ∧
    (IntcodeComputer.init [] [] false).get_value ⟨5, 7⟩ =
      .error (.invalidMode ⟨5, 7⟩) :=
  ⟨by decide, by decide⟩

theorem C3_mode_errors_amended_witness :
    (IntcodeComputer.init [1] [] false).get_value ⟨9, 3⟩ =
      .error (.invalidMode ⟨9, 3⟩) ∧
    (IntcodeComputer.init [1] [] false).get_write_value ⟨9, 3⟩ = 9 := by
  have h := C3_mode_errors_amended (IntcodeComputer.init [1] [] false)
    ⟨9, 3⟩ (by decide) (by decide) (by decide)
  exact ⟨h.1, h.2⟩

/-- C5 (confirmed): on a nonempty output log, `diagnostic` returns the
last output when every earlier output is zero, and fails with the
bad-diagnostic error carrying the earlier outputs otherwise. -/
theorem C5_diagnostic (m : IntcodeComputer) (h : m.output ≠ []) :
    ((m.output.dropLast.all fun x => x = 0) = true →
      m.diagnostic = .ok (m.output.getLast h)) ∧
    ((m.output.dropLast.all fun x => x = 0) = false →
      m.diagnostic = .error (.badDiagnostic m.output.dropLast)) := by
  unfold IntcodeComputer.diagnostic
  constructor
  · intro hall
    rw [if_neg (by simp [hall])]
    rw [List.getLast?_eq_getLast _ h]
  · intro hfalse
    rw [if_pos (by simp [hfalse])]

theorem C5_diagnostic_witness :
    ({ IntcodeComputer.init [] [] false with
        output := [0, 0, 0, 42] } : IntcodeComputer).diagnostic = .ok 42 ∧
    ({ IntcodeComputer.init [] [] false with
        output := [0, 1, 0] } : IntcodeComputer).diagnostic =
      .error (.badDiagnostic [0, 1]) := by
  constructor
  · have h := C5_diagnostic
      { IntcodeComputer.init [] [] false with output := [0, 0, 0, 42] }
      (by decide)
    exact (h.1 (by decide)).trans (by rfl)
  · have h := C5_diagnostic
      { IntcodeComputer.init [] [] false with output := [0, 1, 0] }
      (by decide)
    exact (h.2 (by decide)).trans (by rfl)

/-- C10 (confirmed): on an empty output log, `diagnostic` neither
returns a value nor raises the bad-diagnostic error — the all-zero check
over the empty prefix passes vacuously and taking the last output raises
the out-of-range index error. -/
theorem C10_diagnostic_empty (m : IntcodeComputer) (h : m.output = []) :
    m.diagnostic = .error .indexError ∧
    (∀ v : ℤ, m.diagnostic ≠ .ok v) ∧
    (∀ codes, m.diagnostic ≠ .error (.badDiagnostic codes)) := by
  have hd : m.diagnostic = .error .indexError := by
    unfold IntcodeComputer.diagnostic
    rw [h]
    decide
  exact ⟨hd, fun v hv => by rw [hd] at hv; exact Except.noConfusion hv,
    fun codes hc => by
      rw [hd] at hc
      exact DiagError.noConfusion (Except.error.inj hc)⟩

theorem C10_diagnostic_empty_witness :
    (IntcodeComputer.init [99] [] false).diagnostic = .error .indexError ∧
    (IntcodeComputer.init [99] [] false).diagnostic ≠ .ok 0 ∧
    (IntcodeComputer.init [99] [] false).diagnostic ≠
      .error (.badDiagnostic []) := by
  have h := C10_diagnostic_empty (IntcodeComputer.init [99] [] false) rfl
  exact ⟨h.1, h.2.1 0, h.2.2 []⟩

/-- C6 (confirmed): when the word at the pointer decodes to an opcode
outside the valid set, `run` raises the invalid-opcode error and the
machine carried out of the run is exactly the machine at the failure
point — memory, pointer, relative base, input queue and output log are
untouched. -/
theorem C6_invalid_opcode (fuel : ℕ) (m : IntcodeComputer)
    (op mo1 mo2 mo3 : ℕ)
    (hparse : parse_opcode (m.program m.pointer) = .ok (op, mo1, mo2, mo3))
    (hop : op ∉ valid_opcodes) :
    IntcodeComputer.run (fuel + 1) m none = .err (.invalidOpcode op) m := by
  simp only [IntcodeComputer.run, Option.getD, runAux, hparse]
  rw [if_pos hop]

theorem C6_invalid_opcode_witness :
    IntcodeComputer.run 1 (IntcodeComputer.init [44] [] true) none =
      .err (.invalidOpcode 44) (IntcodeComputer.init [44] [] true) :=
  C6_invalid_opcode 0 (IntcodeComputer.init [44] [] true) 44 0 0 0
    (by decide) (by decide)

/-- C7 (confirmed): a queued-mode machine (interactive flag off) whose
pending input list is empty fails with the input-exhausted error when it
executes an input instruction (opcode 3), carrying the machine unchanged
rather than blocking or producing a value. -/
theorem C7_input_exhausted (fuel : ℕ) (m : IntcodeComputer)
    (mo1 mo2 mo3 : ℕ)
    (hparse : parse_opcode (m.program m.pointer) = .ok (3, mo1, mo2, mo3))
    (hint : m.interactive = false) (hq : m.inputs = []) :
    IntcodeComputer.run (fuel + 1) m none = .err .inputExhausted m := by
  simp only [IntcodeComputer.run, Option.getD, runAux, hparse]
  norm_num [valid_opcodes, num_parameters, IntcodeComputer.slice_program,
    execute_opcode, IntcodeComputer.get_input, hint, hq]

theorem C7_input_exhausted_witness :
    IntcodeComputer.run 1 (IntcodeComputer.init [3, 0, 4, 0, 99] [] true)
      none = .err .inputExhausted
        (IntcodeComputer.init [3, 0, 4, 0, 99] [] true) :=
  C7_input_exhausted 0 (IntcodeComputer.init [3, 0, 4, 0, 99] [] true)
    0 0 0 (by decide) (by decide) rfl

/-- C1 (code bug): `copy` on a machine with a pending input drains the
pending-input queue of the original (the Python body exhausts the
iterator of the original while snapshotting it), while the clone receives
the pending inputs and all other fields intact; an identical subsequent
run therefore halts on the clone with output log `[7]` but aborts on the
original with the input-exhausted error, contradicting the claim that the
original is left unchanged and that identical sequences agree. -/
theorem C1_copy_consumes_pending_inputs :
    (IntcodeComputer.init [3, 0, 4, 0, 99] [7] false).copy.1.inputs = [7] ∧
    (IntcodeComputer.init [3, 0, 4, 0, 99] [7] false).copy.1.program =
      (IntcodeComputer.init [3, 0, 4, 0, 99] [7] false).program ∧
    (IntcodeComputer.init [3, 0, 4, 0, 99] [7] false).copy.1.pointer = 0 ∧
    (IntcodeComputer.init [3, 0, 4, 0, 99] [7] false).copy.2.inputs = [] ∧
    (IntcodeComputer.run 30
      (IntcodeComputer.init [3, 0, 4, 0, 99] [7] false).copy.1
      none).halted? = some true ∧
    (IntcodeComputer.run 30
      (IntcodeComputer.init [3, 0, 4, 0, 99] [7] false).copy.1
      none).machine.output = [7] ∧
    IntcodeComputer.run 30
      (IntcodeComputer.init [3, 0, 4, 0, 99] [7] false).copy.2 none =
      .err .inputExhausted
        (IntcodeComputer.init [3, 0, 4, 0, 99] [7] false).copy.2 :=
  ⟨rfl, rfl, rfl, rfl, by decide, by decide, rfl⟩

theorem bump_output (m : IntcodeComputer) (inc : Bool) (np : ℕ) :
    (bump m inc np).output = m.output := by
  cases inc <;> rfl

theorem bump_interactive (m : IntcodeComputer) (inc : Bool) (np : ℕ) :
    (bump m inc np).interactive = m.interactive := by
  cases inc <;> rfl

theorem bump_program (m : IntcodeComputer) (inc : Bool) (np : ℕ) :
    (bump m inc np).program = m.program := by
  cases inc <;> rfl

theorem get_input_ok (m : IntcodeComputer) (r : ℤ × IntcodeComputer)
    (h : m.get_input = .ok r) :
    r.2.output = m.output ∧ r.2.interactive = m.interactive ∧
    r.2.program = m.program ∧ r.2.relative_base = m.relative_base := by
  unfold IntcodeComputer.get_input at h
  by_cases hi : m.interactive
  · rw [if_pos hi] at h
    exact absurd h (by simp)
  · rw [if_neg hi] at h
    cases hm : m.inputs with
    | nil =>
      rw [hm] at h
      exact absurd h (by simp)
    | cons v rest =>
      rw [hm] at h
      obtain rfl : ((v, { m with inputs := rest }) : ℤ × IntcodeComputer) = r :=
        Except.ok.inj h
      exact ⟨rfl, rfl, rfl, rfl⟩

theorem memUpdate_ne (f : ℤ → ℤ) (w v a : ℤ) (h : a ≠ w) :
    memUpdate f w v a = f a := if_neg h

/-- Common shape of the two-read-one-write opcodes (1, 2, 7, 8). -/
theorem write2_case (m : IntcodeComputer) (ea eb : Except RunError ℤ)
    (w : ℤ) (g : ℤ → ℤ → ℤ) (mf : IntcodeComputer) (inc : Bool)
    (h : (ea >>= fun va => eb >>= fun vb =>
        pure ({ m with program := memUpdate m.program w (g va vb) }, true))
      = Except.ok (mf, inc)) :
    (mf.output = m.output ∨ ∃ v, mf.output = m.output ++ [v]) ∧
    mf.interactive = m.interactive ∧
    (∃ w2 : ℤ, ∀ a, a ≠ w2 → mf.program a = m.program a) := by
  rw [except_bind_ok] at h
  obtain ⟨va, hva, h⟩ := h
  rw [except_bind_ok] at h
  obtain ⟨vb, hvb, h⟩ := h
  obtain ⟨rfl, rfl⟩ := Prod.mk.inj (Except.ok.inj h)
  exact ⟨Or.inl rfl, rfl, ⟨w, fun a ha => memUpdate_ne _ _ _ _ ha⟩⟩

/-- Per-instruction effect summary: a successful `execute_opcode` appends
at most one output, never touches the interactive flag, and writes at
most one memory address. -/
theorem execute_opcode_spec (m : IntcodeComputer) (op : ℕ)
    (ps : List Instruction) (mf : IntcodeComputer) (inc : Bool)
    (h : execute_opcode m op ps = .ok (mf, inc)) :
    (mf.output = m.output ∨ ∃ v, mf.output = m.output ++ [v]) ∧
    mf.interactive = m.interactive ∧
    (∃ w : ℤ, ∀ a, a ≠ w → mf.program a = m.program a) := by
  unfold execute_opcode at h
  by_cases h1 : op = 1
  · rw [if_pos h1] at h
    exact write2_case m _ _ _ _ mf inc h
  rw [if_neg h1] at h
  by_cases h2 : op = 2
  · rw [if_pos h2] at h
    exact write2_case m _ _ _ _ mf inc h
  rw [if_neg h2] at h
  by_cases h3 : op = 3
  · rw [if_pos h3, except_bind_ok] at h
    obtain ⟨r, hr, h⟩ := h
    obtain ⟨ho, hi, hp, _⟩ := get_input_ok m r hr
    obtain ⟨rfl, rfl⟩ := Prod.mk.inj (Except.ok.inj h)
    refine ⟨Or.inl ho, hi, ⟨r.2.get_write_value (ps.getD 0 ⟨0, 0⟩),
      fun a ha => ?_⟩⟩
    exact (memUpdate_ne _ _ _ _ ha).trans (congrFun hp a)
  rw [if_neg h3] at h
  by_cases h4 : op = 4
  · rw [if_pos h4, except_bind_ok] at h
    obtain ⟨v, hv, h⟩ := h
    obtain ⟨rfl, rfl⟩ := Prod.mk.inj (Except.ok.inj h)
    exact ⟨Or.inr ⟨v, rfl⟩, rfl, ⟨0, fun a _ => rfl⟩⟩
  rw [if_neg h4] at h
  by_cases h5 : op = 5
  · rw [if_pos h5, except_bind_ok] at h
    obtain ⟨va, hva, h⟩ := h
    by_cases hz : va ≠ 0
    · rw [if_pos hz, except_bind_ok] at h
      obtain ⟨vb, hvb, h⟩ := h
      obtain ⟨rfl, rfl⟩ := Prod.mk.inj (Except.ok.inj h)
      exact ⟨Or.inl rfl, rfl, ⟨0, fun a _ => rfl⟩⟩
    · rw [if_neg hz] at h
      obtain ⟨rfl, rfl⟩ := Prod.mk.inj (Except.ok.inj h)
      exact ⟨Or.inl rfl, rfl, ⟨0, fun a _ => rfl⟩⟩
  rw [if_neg h5] at h
  by_cases h6 : op = 6
  · rw [if_pos h6, except_bind_ok] at h
    obtain ⟨va, hva, h⟩ := h
    by_cases hz : va = 0
    · rw [if_pos hz, except_bind_ok] at h
      obtain ⟨vb, hvb, h⟩ := h
      obtain ⟨rfl, rfl⟩ := Prod.mk.inj (Except.ok.inj h)
      exact ⟨Or.inl rfl, rfl, ⟨0, fun a _ => rfl⟩⟩
    · rw [if_neg hz] at h
      obtain ⟨rfl, rfl⟩ := Prod.mk.inj (Except.ok.inj h)
      exact ⟨Or.inl rfl, rfl, ⟨0, fun a _ => rfl⟩⟩
  rw [if_neg h6] at h
  by_cases h7 : op = 7
  · rw [if_pos h7] at h
    exact write2_case m _ _ _ _ mf inc h
  rw [if_neg h7] at h
  by_cases h8 : op = 8
  · rw [if_pos h8] at h
    exact write2_case m _ _ _ _ mf inc h
  rw [if_neg h8] at h
  by_cases h9 : op = 9
  · rw [if_pos h9, except_bind_ok] at h
    obtain ⟨v, hv, h⟩ := h
    obtain ⟨rfl, rfl⟩ := Prod.mk.inj (Except.ok.inj h)
    exact ⟨Or.inl rfl, rfl, ⟨0, fun a _ => rfl⟩⟩
  rw [if_neg h9] at h
  obtain ⟨rfl, rfl⟩ := Prod.mk.inj (Except.ok.inj h)
  exact ⟨Or.inl rfl, rfl, ⟨0, fun a _ => rfl⟩⟩

/-- Loop-level invariants: a run never touches the interactive flag and
modifies memory at only finitely many addresses. -/
theorem runAux_preserves (fuel : ℕ) : ∀ (m : IntcodeComputer)
    (limit : Bool) (target : ℤ) (orig : ℕ),
    (runAux fuel m limit target orig).machine.interactive = m.interactive ∧
    ∃ w : List ℤ, ∀ a, a ∉ w →
      (runAux fuel m limit target orig).machine.program a = m.program a := by
  induction fuel with
  | zero => exact fun m l t o => ⟨rfl, [], fun a _ => rfl⟩
  | succ fuel ih =>
    intro m limit target orig
    rcases hp : parse_opcode (m.program m.pointer) with e | quad
    · rw [runAux]
      simp only [hp]
      exact ⟨rfl, [], fun a _ => rfl⟩
    · obtain ⟨op, mo1, mo2, mo3⟩ := quad
      rw [runAux]
      simp only [hp]
      by_cases hv : op ∉ valid_opcodes
      · rw [if_pos hv]
        exact ⟨rfl, [], fun a _ => rfl⟩
      rw [if_neg hv]
      by_cases h99 : op = 99
      · rw [if_pos h99]
        exact ⟨rfl, [], fun a _ => rfl⟩
      rw [if_neg h99]
      rcases hnp : num_parameters op with e | np
      · simp only [hnp]
        exact ⟨rfl, [], fun a _ => rfl⟩
      simp only [hnp]
      rcases hex : execute_opcode m op (List.zipWith Instruction.mk
          (m.slice_program (m.pointer + 1) np) [mo1, mo2, mo3]) with e | pr
      · simp only [hex]
        exact ⟨rfl, [], fun a _ => rfl⟩
      obtain ⟨m2, inc⟩ := pr
      simp only [hex]
      obtain ⟨hout, hint, w1, hw1⟩ := execute_opcode_spec m op _ m2 inc hex
      by_cases hb : limit = true ∧
        ((bump m2 inc np).output.length : ℤ) - (orig : ℤ) = target
      · rw [if_pos hb]
        refine ⟨(bump_interactive m2 inc np).trans hint, [w1], fun a ha => ?_⟩
        have : a ≠ w1 := by simpa using ha
        exact ((congrFun (bump_program m2 inc np) a).trans (hw1 a this))
      · rw [if_neg hb]
        obtain ⟨ih1, w2, ihw⟩ := ih (bump m2 inc np) limit target orig
        refine ⟨ih1.trans ((bump_interactive m2 inc np).trans hint),
          w1 :: w2, fun a ha => ?_⟩
        have ha1 : a ≠ w1 := fun hh => ha (by simp [hh])
        have ha2 : a ∉ w2 := fun hh => ha (by simp [hh])
        rw [ihw a ha2]
        exact (congrFun (bump_program m2 inc np) a).trans (hw1 a ha1)

/-- Output-bound invariant: running with the output limit enabled and
fewer than `target` new outputs so far either suspends with exactly
`orig + target` outputs in the log or halts with fewer. -/
theorem runAux_output_bound (fuel : ℕ) : ∀ (m mf : IntcodeComputer)
    (N : ℤ) (orig : ℕ) (b : Bool), 0 < N →
    (m.output.length : ℤ) - (orig : ℤ) < N →
    runAux fuel m true N orig = .ok mf b →
    (b = false → (mf.output.length : ℤ) = (orig : ℤ) + N) ∧
    (b = true → (mf.output.length : ℤ) - (orig : ℤ) < N) := by
  induction fuel with
  | zero =>
    intro m mf N orig b hN hd hrun
    rw [runAux] at hrun
    exact absurd hrun (fun h => RunOutcome.noConfusion h)
  | succ fuel ih =>
    intro m mf N orig b hN hd hrun
    rw [runAux] at hrun
    rcases hp : parse_opcode (m.program m.pointer) with e | quad
    · simp only [hp] at hrun
      exact absurd hrun (fun h => RunOutcome.noConfusion h)
    obtain ⟨op, mo1, mo2, mo3⟩ := quad
    simp only [hp] at hrun
    by_cases hv : op ∉ valid_opcodes
    · rw [if_pos hv] at hrun
      exact absurd hrun (fun h => RunOutcome.noConfusion h)
    rw [if_neg hv] at hrun
    by_cases h99 : op = 99
    · rw [if_pos h99] at hrun
      obtain ⟨h1, h2⟩ := RunOutcome.ok.inj hrun
      subst h1; subst h2
      refine ⟨fun hb => absurd hb (by simp), fun _ => hd⟩
    rw [if_neg h99] at hrun
    rcases hnp : num_parameters op with e | np
    · simp only [hnp] at hrun
      exact absurd hrun (fun h => RunOutcome.noConfusion h)
    simp only [hnp] at hrun
    rcases hex : execute_opcode m op (List.zipWith Instruction.mk
        (m.slice_program (m.pointer + 1) np) [mo1, mo2, mo3]) with e | pr
    · simp only [hex] at hrun
      exact absurd hrun (fun h => RunOutcome.noConfusion h)
    obtain ⟨m2, inc⟩ := pr
    simp only [hex] at hrun
    have hout := (execute_opcode_spec m op _ m2 inc hex).1
    have hlen : (bump m2 inc np).output.length = m.output.length ∨
        (bump m2 inc np).output.length = m.output.length + 1 := by
      rw [bump_output]
      rcases hout with h | ⟨v, h⟩
      · exact Or.inl (by rw [h])
      · exact Or.inr (by rw [h]; simp)
    by_cases hc : ((bump m2 inc np).output.length : ℤ) - (orig : ℤ) = N
    · rw [if_pos ⟨by trivial, hc⟩] at hrun
      obtain ⟨h1, h2⟩ := RunOutcome.ok.inj hrun
      subst h1; subst h2
      exact ⟨fun _ => by omega, fun hb => absurd hb (by simp)⟩
    · rw [if_neg (fun hh => hc hh.2)] at hrun
      have hd2 : ((bump m2 inc np).output.length : ℤ) - (orig : ℤ) < N := by
        rcases hlen with h | h <;> rw [h] <;> push_cast <;> omega
      exact ih (bump m2 inc np) mf N orig b hN hd2 hrun

theorem foldl_addOne_spec (l : List ℤ) : ∀ m : IntcodeComputer,
    (l.foldl IntcodeComputer.addOne m).inputs = m.inputs ++ l ∧
    (l.foldl IntcodeComputer.addOne m).interactive =
      (if l = [] then m.interactive else false) ∧
    (l.foldl IntcodeComputer.addOne m).program = m.program ∧
    (l.foldl IntcodeComputer.addOne m).output = m.output := by
  induction l with
  | nil => exact fun m => ⟨by simp, by simp, rfl, rfl⟩
  | cons v t ih =>
    intro m
    simp only [List.foldl_cons]
    obtain ⟨h1, h2, h3, h4⟩ := ih (m.addOne v)
    refine ⟨?_, ?_, h3, h4⟩
    · rw [h1]
      simp [IntcodeComputer.addOne]
    · rw [h2]
      by_cases ht : t = [] <;> simp [ht, IntcodeComputer.addOne]

/-- C8 (confirmed): `add_input` appends the supplied value or values, in
order, to the back of the pending queue, leaving every previously queued
value in place and in order, and it switches the interactive flag off;
afterwards no operation — a further `add_input`, a `run`, or a `copy` —
ever switches the flag back on. -/
theorem C8_add_input :
    (∀ (m : IntcodeComputer) (v : ℤ),
      (m.add_input (.inl v)).inputs = m.inputs ++ [v] ∧
      (m.add_input (.inl v)).interactive = false ∧
      (m.add_input (.inl v)).output = m.output ∧
      (m.add_input (.inl v)).program = m.program) ∧
    (∀ (m : IntcodeComputer) (l : List ℤ),
      (m.add_input (.inr l)).inputs = m.inputs ++ l ∧
      (m.add_input (.inr l)).interactive = false ∧
      (m.add_input (.inr l)).output = m.output ∧
      (m.add_input (.inr l)).program = m.program) ∧
    (∀ (m : IntcodeComputer) (fuel : ℕ) (num_outputs : Option ℤ),
      m.interactive = false →
      (IntcodeComputer.run fuel m num_outputs).machine.interactive = false) ∧
    (∀ m : IntcodeComputer, m.interactive = false →
      (∀ val, (m.add_input val).interactive = false) ∧
      m.copy.1.interactive = false ∧ m.copy.2.interactive = false) := by
  have hone : ∀ (m : IntcodeComputer) (v : ℤ),
      (m.add_input (.inl v)).inputs = m.inputs ++ [v] ∧
      (m.add_input (.inl v)).interactive = false ∧
      (m.add_input (.inl v)).output = m.output ∧
      (m.add_input (.inl v)).program = m.program :=
    fun m v => ⟨rfl, rfl, rfl, rfl⟩
  have hmany : ∀ (m : IntcodeComputer) (l : List ℤ),
      (m.add_input (.inr l)).inputs = m.inputs ++ l ∧
      (m.add_input (.inr l)).interactive = false ∧
      (m.add_input (.inr l)).output = m.output ∧
      (m.add_input (.inr l)).program = m.program := by
    intro m l
    obtain ⟨h1, h2, h3, h4⟩ :=
      foldl_addOne_spec l { m with interactive := false }
    refine ⟨h1, h2.trans ?_, h4, h3⟩
    by_cases hl : l = [] <;> simp [hl]
  refine ⟨hone, hmany, ?_, ?_⟩
  · intro m fuel num_outputs hm
    show (runAux fuel m _ _ _).machine.interactive = false
    exact (runAux_preserves fuel m _ _ _).1.trans hm
  · intro m hm
    refine ⟨fun val => ?_, hm, hm⟩
    cases val with
    | inl v => exact (hone m v).2.1
    | inr l => exact (hmany m l).2.1

theorem C8_add_input_witness :
    ((IntcodeComputer.init [99] [5] false).add_input (.inl 3)).inputs =
      [5, 3] ∧
    ((IntcodeComputer.init [99] [5] false).add_input
      (.inr [1, 2])).inputs = [5, 1, 2] ∧
    ((IntcodeComputer.init [99] [5] false).add_input
      (.inl 3)).interactive = false ∧
    (IntcodeComputer.run 1 (IntcodeComputer.init [99] [5] false)
      none).machine.interactive = false :=
  ⟨(C8_add_input.1 (IntcodeComputer.init [99] [5] false) 3).1,
   (C8_add_input.2.1 (IntcodeComputer.init [99] [5] false) [1, 2]).1,
   (C8_add_input.1 (IntcodeComputer.init [99] [5] false) 3).2.1,
   C8_add_input.2.2.1 (IntcodeComputer.init [99] [5] false) 1 none
     (by decide)⟩

/-- C9 (confirmed): memory reads are total — the initial image covers
addresses 0 up to the program length and every other address (negative
or beyond the image) reads as zero; a run modifies only finitely many
addresses, and `copy` and `add_input` reproduce memory exactly, so an
address never written still reads zero after any sequence of
operations. -/
theorem C9_memory_zero_default :
    (∀ (prog ins : List ℤ) (f : Bool) (a : ℤ),
      a < 0 ∨ (prog.length : ℤ) ≤ a →
      (IntcodeComputer.init prog ins f).program a = 0) ∧
    (∀ (fuel : ℕ) (m : IntcodeComputer) (num_outputs : Option ℤ),
      ∃ w : List ℤ, ∀ a, a ∉ w →
        (IntcodeComputer.run fuel m num_outputs).machine.program a =
          m.program a) ∧
    (∀ m : IntcodeComputer,
      m.copy.1.program = m.program ∧ m.copy.2.program = m.program) ∧
    (∀ (m : IntcodeComputer) (val : ℤ ⊕ List ℤ),
      (m.add_input val).program = m.program) := by
  refine ⟨?_, ?_, fun m => ⟨rfl, rfl⟩, ?_⟩
  · intro prog ins f a ha
    show initMemory prog a = 0
    unfold initMemory
    rcases ha with ha | ha
    · rw [if_pos ha]
    · rw [if_neg (by omega)]
      exact List.getD_eq_default _ _ (by omega)
  · intro fuel m num_outputs
    show ∃ w : List ℤ, ∀ a, a ∉ w →
      (runAux fuel m _ _ _).machine.program a = m.program a
    exact (runAux_preserves fuel m _ _ _).2
  · intro m val
    cases val with
    | inl v => rfl
    | inr l => exact (foldl_addOne_spec l _).2.2.1

theorem C9_memory_zero_default_witness :
    (IntcodeComputer.init [1, 2] [] false).program 5 = 0 ∧
    (IntcodeComputer.init [1, 2] [] false).program (-3) = 0 :=
  ⟨C9_memory_zero_default.1 [1, 2] [] false 5 (Or.inr (by norm_num)),
   C9_memory_zero_default.1 [1, 2] [] false (-3) (Or.inl (by norm_num))⟩

/-- C4 (confirmed): a run called with a positive bound N that returns
the suspended flag (false) has produced exactly N new outputs since the
call began, and one that returns the halted flag (true) has produced
fewer than N — so the loop suspends, rather than halts, as soon as the
Nth new output appears, with no further instruction processed.  On the
two-output program `[104, 1, 104, 2, 99]`, a run bounded to one new
output suspends with output log `[1]` and the pointer on the second
output instruction (address 2, whose word 104 decodes to opcode 4), and
an unbounded run from that state halts and appends the remaining
output. -/
theorem C4_run_output_bound :
    (∀ (fuel : ℕ) (m mf : IntcodeComputer) (N : ℤ) (b : Bool), 0 < N →
      IntcodeComputer.run fuel m (some N) = .ok mf b →
      (b = false →
        (mf.output.length : ℤ) = (m.output.length : ℤ) + N) ∧
      (b = true →
        (mf.output.length : ℤ) < (m.output.length : ℤ) + N)) ∧
    (IntcodeComputer.run 20 (.init [104, 1, 104, 2, 99] [] true)
      (some 1)).halted? = some false ∧
    (IntcodeComputer.run 20 (.init [104, 1, 104, 2, 99] [] true)
      (some 1)).machine.output = [1] ∧
    (IntcodeComputer.run 20 (.init [104, 1, 104, 2, 99] [] true)
      (some 1)).machine.pointer = 2 ∧
    parse_opcode ((IntcodeComputer.run 20
      (.init [104, 1, 104, 2, 99] [] true)
      (some 1)).machine.program 2) = .ok (4, 1, 0, 0) ∧
    (IntcodeComputer.run 20 ((IntcodeComputer.run 20
      (.init [104, 1, 104, 2, 99] [] true) (some 1)).machine)
      none).halted? = some true ∧
    (IntcodeComputer.run 20 ((IntcodeComputer.run 20
      (.init [104, 1, 104, 2, 99] [] true) (some 1)).machine)
      none).machine.output = [1, 2] := by
  refine ⟨?_, by decide, by decide, by decide, by decide, by decide,
    by decide⟩
  intro fuel m mf N b hN hrun
  rw [IntcodeComputer.run] at hrun
  rw [show decide (N ≠ 0) = true by simp [hN.ne'],
    Option.getD_some] at hrun
  have := runAux_output_bound fuel m mf N m.output.length b hN
    (by omega) hrun
  obtain ⟨h1, h2⟩ := this
  exact ⟨fun hb => by have := h1 hb; omega,
    fun hb => by have := h2 hb; omega⟩

theorem C4_run_output_bound_witness :
    (0 : ℤ) < 1 ∧
    ((IntcodeComputer.run 20 (.init [104, 1, 104, 2, 99] [] true)
      (some 1)).machine.output.length : ℤ) =
      ((IntcodeComputer.init [104, 1, 104, 2, 99] [] true).output.length
        : ℤ) + 1 :=
  ⟨by norm_num,
   (C4_run_output_bound.1 20 (.init [104, 1, 104, 2, 99] [] true)
     ((IntcodeComputer.run 20 (.init [104, 1, 104, 2, 99] [] true)
       (some 1)).machine) 1 false (by norm_num) rfl).1 rfl⟩

end Intcode
